import Mathlib

/-!
Verification of the rand-bits crate (src/lib.rs): random unsigned integers
with a fixed number of set bits.

The embedding models:
  - `count_ones` : Rust's `uN::count_ones` on the numeric value (as a `Nat`);
  - `MAPPING` : the `phf_map` from popcount (keys 1..=4) to the slice of all
    bytes of that weight;
  - `sampleU8`, `sampleU16`, `sampleU32`, `sampleU64`, `sampleU128` : the five
    `Distribution<uN> for Standard::sample` implementations.  A random source
    (`rand::Rng`) is modelled as an arbitrary stream of naturals `RS`; each
    `gen_range` call consumes one stream element and reduces it into the
    requested range, so quantifying over all streams covers every possible
    sequence of in-range draws.  Panics (`panic!`, `expect`, out-of-bounds
    indexing, empty `gen_range`) are modelled as `none`.
  - `u8Dist`, `u16Dist` : the exact probability mass function of the sampler
    outputs under the assumption (rand's documented contract) that every
    `gen_range lo..hi` / `lo..=hi` draw is uniform on its range and draws are
    independent; panic paths carry mass 0.
-/

namespace RandBits

set_option maxRecDepth 8000

/-- Fuelled bit-counting loop; fuel `n` suffices for input `n`. -/
def countOnesAux : Nat → Nat → Nat
  | 0, _ => 0
  | fuel + 1, n => if n = 0 then 0 else n % 2 + countOnesAux fuel (n / 2)

/-- Rust `uN::count_ones`: the number of set bits (Hamming weight) of the value. -/
def count_ones (n : Nat) : Nat := countOnesAux n n

/-- A random source: an arbitrary infinite stream of naturals, one per
`gen_range` call made by the sampler.  This models `rand::Rng`. -/
def RS : Type := Nat → Nat

/-- Modelled from rand's contract: `rng.gen_range(0..n)` returns a value in
`[0, n)` and panics when the range is empty.  The stream element at the current
position `p` is reduced into the range; as the stream varies this realises
every possible in-range draw. -/
def genRangeExcl (s : RS) (p n : Nat) : Option Nat :=
  if n = 0 then none else some (s p % n)

/-- Modelled from rand's contract: `rng.gen_range(lo..=hi)` returns a value in
`[lo, hi]` and panics when `hi < lo`. -/
def genRangeIncl (s : RS) (p lo hi : Nat) : Option Nat :=
  if hi < lo then none else some (lo + s p % (hi + 1 - lo))

/-- MAPPING: the `phf_map` from a popcount in `1..=4` to the slice of all byte
values having exactly that popcount (`None` for every other key). -/
def MAPPING : Nat → Option (List Nat) := fun k =>
  if k = 1 then
    some [0x01, 0x02, 0x04, 0x08, 0x10, 0x20, 0x40, 0x80]
  else if k = 2 then
    some [0x03, 0x05, 0x06, 0x09, 0x0A, 0x0C, 0x11, 0x12, 0x14, 0x18, 0x21,
      0x22, 0x24, 0x28, 0x30, 0x41, 0x42, 0x44, 0x48, 0x50, 0x60, 0x81, 0x82,
      0x84, 0x88, 0x90, 0xA0, 0xC0]
  else if k = 3 then
    some [0x07, 0x0B, 0x0D, 0x0E, 0x13, 0x15, 0x16, 0x19, 0x1A, 0x1C, 0x23,
      0x25, 0x26, 0x29, 0x2A, 0x2C, 0x31, 0x32, 0x34, 0x38, 0x43, 0x45, 0x46,
      0x49, 0x4A, 0x4C, 0x51, 0x52, 0x54, 0x58, 0x61, 0x62, 0x64, 0x68, 0x70,
      0x83, 0x85, 0x86, 0x89, 0x8A, 0x8C, 0x91, 0x92, 0x94, 0x98, 0xA1, 0xA2,
      0xA4, 0xA8, 0xB0, 0xC1, 0xC2, 0xC4, 0xC8, 0xD0, 0xE0]
  else if k = 4 then
    some [0x0F, 0x17, 0x1B, 0x1D, 0x1E, 0x27, 0x2B, 0x2D, 0x2E, 0x33, 0x35,
      0x36, 0x39, 0x3A, 0x3C, 0x47, 0x4B, 0x4D, 0x4E, 0x53, 0x55, 0x56, 0x59,
      0x5A, 0x5C, 0x63, 0x65, 0x66, 0x69, 0x6A, 0x6C, 0x71, 0x72, 0x74, 0x78,
      0x87, 0x8B, 0x8D, 0x8E, 0x93, 0x95, 0x96, 0x99, 0x9A, 0x9C, 0xA3, 0xA5,
      0xA6, 0xA9, 0xAA, 0xAC, 0xB1, 0xB2, 0xB4, 0xB8, 0xC3, 0xC5, 0xC6, 0xC9,
      0xCA, 0xCC, 0xD1, 0xD2, 0xD4, 0xD8, 0xE1, 0xE2, 0xE4, 0xE8, 0xF0]
  else none

/-- Fuelled body of `Distribution<u8> for Standard::sample`.  The only
recursion is the `5..=7` arm, which calls back with `8 - bits ∈ 1..=3`, so
recursion depth is at most one and fuel 2 suffices for every input. -/
def sampleU8Aux : Nat → RS → Nat → Nat → Option (Nat × Nat)
  | 0, _, _, _ => none
  | fuel + 1, s, p, bits =>
    if bits = 0 then some (0, p)
    else if bits = 8 then some (255, p)
    else if 1 ≤ bits ∧ bits ≤ 4 then
      match MAPPING bits with
      | none => none
      | some values =>
        match genRangeExcl s p values.length with
        | none => none
        | some index =>
          match values[index]? with
          | none => none
          | some v => some (v, p + 1)
    else if 5 ≤ bits ∧ bits ≤ 7 then
      (sampleU8Aux fuel s p (8 - bits)).map (fun r => (r.1 ^^^ 255, r.2))
    else none

/-- Rust `Distribution<u8> for Standard::sample` (and hence `gen_bits::<u8>`):
returns the sampled byte and the advanced stream position, `none` on panic. -/
def sampleU8 (s : RS) (p bits : Nat) : Option (Nat × Nat) := sampleU8Aux 2 s p bits

/-- The width-composition step shared verbatim (up to constants) by the
`u16`, `u32`, `u64` and `u128` impls of `Standard::sample`: the popcount of
the high half is drawn from the feasible inclusive range, the two halves are
sampled recursively, and the result is `(high <<< half) ||| low`. -/
def sampleSplit (width : Nat) (sub : RS → Nat → Nat → Option (Nat × Nat))
    (s : RS) (p bits : Nat) : Option (Nat × Nat) :=
  let half := width / 2
  if bits = 0 then some (0, p)
  else if bits = width then some (2 ^ width - 1, p)
  else if 1 ≤ bits ∧ bits < width then
    match genRangeIncl s p (bits - half) (min bits half) with
    | none => none
    | some high_bits =>
      let low_bits := bits - high_bits
      match sub s (p + 1) high_bits with
      | none => none
      | some hr =>
        match sub s hr.2 low_bits with
        | none => none
        | some lr => some ((hr.1 <<< half) ||| lr.1, lr.2)
  else none

/-- Rust `Distribution<u16> for Standard::sample`. -/
def sampleU16 : RS → Nat → Nat → Option (Nat × Nat) := sampleSplit 16 sampleU8

/-- Rust `Distribution<u32> for Standard::sample`. -/
def sampleU32 : RS → Nat → Nat → Option (Nat × Nat) := sampleSplit 32 sampleU16

/-- Rust `Distribution<u64> for Standard::sample`. -/
def sampleU64 : RS → Nat → Nat → Option (Nat × Nat) := sampleSplit 64 sampleU32

/-- Rust `Distribution<u128> for Standard::sample`. -/
def sampleU128 : RS → Nat → Nat → Option (Nat × Nat) := sampleSplit 128 sampleU64

/-- Fuelled probability mass function of the `u8` sampler output, under the
assumption that each `gen_range` draw is uniform on its range: the `1..=4` arm
indexes uniformly into the table, the `5..=7` arm is the pushforward under
`xor 255` (an involution), and panic paths carry mass 0. -/
def u8DistAux : Nat → Nat → Nat → ℚ
  | 0, _, _ => 0
  | fuel + 1, bits, v =>
    if bits = 0 then if v = 0 then 1 else 0
    else if bits = 8 then if v = 255 then 1 else 0
    else if 1 ≤ bits ∧ bits ≤ 4 then
      match MAPPING bits with
      | none => 0
      | some values => (values.count v : ℚ) / values.length
    else if 5 ≤ bits ∧ bits ≤ 7 then
      u8DistAux fuel (8 - bits) (v ^^^ 255)
    else 0

/-- Probability that `sample::<u8>(bits)` returns the byte `v`, assuming
uniform independent `gen_range` draws. -/
def u8Dist (bits v : Nat) : ℚ := u8DistAux 2 bits v

/-- Probability mass function of the width-composition step: the high-half
popcount `h` is uniform on the feasible range, then the two halves are drawn
independently; a value `v` decomposes uniquely as `v / 2^half` and
`v % 2^half`. -/
def distSplit (width : Nat) (sub : Nat → Nat → ℚ) (bits v : Nat) : ℚ :=
  let half := width / 2
  if bits = 0 then if v = 0 then 1 else 0
  else if bits = width then if v = 2 ^ width - 1 then 1 else 0
  else if 1 ≤ bits ∧ bits < width then
    let lo := bits - half
    let hi := min bits half
    (((hi + 1 - lo : Nat) : ℚ))⁻¹ *
      ∑ h ∈ Finset.Icc lo hi, sub h (v / 2 ^ half) * sub (bits - h) (v % 2 ^ half)
  else 0

/-- Probability that `sample::<u16>(bits)` returns `v`, assuming uniform
independent `gen_range` draws. -/
def u16Dist : Nat → Nat → ℚ := distSplit 16 u8Dist

/-! Basic facts about `count_ones`. -/

theorem countOnesAux_zero (fuel : Nat) : countOnesAux fuel 0 = 0 := by
  cases fuel <;> simp [countOnesAux]

theorem countOnesAux_congr (f : Nat) :
    ∀ g n, n ≤ f → n ≤ g → countOnesAux f n = countOnesAux g n := by
  induction f with
  | zero =>
    intro g n hf _
    interval_cases n
    simp [countOnesAux_zero]
  | succ f ih =>
    intro g n hf hg
    rcases Nat.eq_zero_or_pos n with h0 | h0
    · subst h0; simp [countOnesAux_zero]
    · obtain ⟨g1, rfl⟩ : ∃ g1, g = g1 + 1 := ⟨g - 1, by omega⟩
      simp only [countOnesAux, if_neg (by omega : ¬ n = 0)]
      have h2 : n / 2 ≤ f := by omega
      have h3 : n / 2 ≤ g1 := by omega
      rw [ih g1 (n / 2) h2 h3]

theorem count_ones_rec (n : Nat) (h : n ≠ 0) :
    count_ones n = n % 2 + count_ones (n / 2) := by
  obtain ⟨m, rfl⟩ : ∃ m, n = m + 1 := ⟨n - 1, by omega⟩
  show countOnesAux (m + 1) (m + 1) = _
  simp only [countOnesAux, if_neg (by omega : ¬ m + 1 = 0)]
  rw [countOnesAux_congr m ((m + 1) / 2) ((m + 1) / 2) (by omega) (by omega)]
  rfl

theorem count_ones_two_mul_add (m r : Nat) (hr : r < 2) :
    count_ones (2 * m + r) = count_ones m + r := by
  rcases Nat.eq_zero_or_pos (2 * m + r) with h0 | h0
  · have hm : m = 0 := by omega
    have hr0 : r = 0 := by omega
    subst hm; subst hr0; rfl
  · rw [count_ones_rec _ (by omega)]
    have h1 : (2 * m + r) % 2 = r := by omega
    have h2 : (2 * m + r) / 2 = m := by omega
    rw [h1, h2, Nat.add_comm]

theorem count_ones_mul_pow_add (k : Nat) :
    ∀ a b, b < 2 ^ k → count_ones (2 ^ k * a + b) = count_ones a + count_ones b := by
  induction k with
  | zero =>
    intro a b hb
    interval_cases b
    simp [count_ones, countOnesAux_zero]
  | succ k ih =>
    intro a b hb
    have hsplit : 2 ^ (k + 1) * a + b = 2 * (2 ^ k * a + b / 2) + b % 2 := by
      have h2 : 2 ^ (k + 1) * a = 2 * (2 ^ k * a) := by ring
      omega
    rw [hsplit, count_ones_two_mul_add _ _ (by omega),
      ih a (b / 2) (by omega)]
    have hb2 : count_ones b = count_ones (b / 2) + b % 2 := by
      have := count_ones_two_mul_add (b / 2) (b % 2) (by omega)
      have hb3 : 2 * (b / 2) + b % 2 = b := by omega
      rw [hb3] at this
      omega
    omega

theorem count_ones_two_pow_sub_one (n : Nat) : count_ones (2 ^ n - 1) = n := by
  induction n with
  | zero => rfl
  | succ n ih =>
    have h1 : 1 ≤ 2 ^ n := Nat.one_le_two_pow
    have hsplit : 2 ^ (n + 1) - 1 = 2 * (2 ^ n - 1) + 1 := by
      have : 2 ^ (n + 1) = 2 * 2 ^ n := by ring
      omega
    rw [hsplit, count_ones_two_mul_add _ _ (by omega), ih]

theorem count_ones_eq_zero {n : Nat} (h : count_ones n = 0) : n = 0 := by
  induction n using Nat.strong_induction_on with
  | _ n ih =>
    by_contra hn
    rw [count_ones_rec n hn] at h
    have h2 : n / 2 = 0 := ih (n / 2) (by omega) (by omega)
    omega

/-! Facts about the byte table. -/

/-- The table entry for key `k`, as a plain list (empty for a missing key). -/
def mapList (k : Nat) : List Nat := (MAPPING k).getD []

theorem MAPPING_isSome_iff (k : Nat) : (MAPPING k).isSome ↔ (1 ≤ k ∧ k ≤ 4) := by
  unfold MAPPING
  split_ifs <;> simp <;> omega

theorem MAPPING_eq_mapList {k : Nat} (h : (MAPPING k).isSome) :
    MAPPING k = some (mapList k) := by
  unfold mapList
  cases hm : MAPPING k with
  | none => rw [hm] at h; simp at h
  | some l => simp

theorem mapList_sound : ∀ k < 5, ∀ v ∈ mapList k, count_ones v = k ∧ v < 256 := by
  decide

theorem mapList_complete : ∀ v < 256,
    (count_ones v = 1 → v ∈ mapList 1) ∧ (count_ones v = 2 → v ∈ mapList 2) ∧
    (count_ones v = 3 → v ∈ mapList 3) ∧ (count_ones v = 4 → v ∈ mapList 4) := by
  decide

theorem mapList_nodup : ∀ k < 5, (mapList k).Nodup := by decide

theorem mapList_length : ∀ k < 5, 1 ≤ k → (mapList k).length = Nat.choose 8 k := by
  decide

theorem mapList_length_pos {k : Nat} (h1 : 1 ≤ k) (h2 : k ≤ 4) :
    0 < (mapList k).length := by
  rw [mapList_length k (by omega) h1]
  exact Nat.choose_pos (by omega)

theorem mem_mapList_iff {k v : Nat} (h1 : 1 ≤ k) (h2 : k ≤ 4) :
    v ∈ mapList k ↔ (v < 256 ∧ count_ones v = k) := by
  constructor
  · intro hv
    have := mapList_sound k (by omega) v hv
    exact ⟨this.2, this.1⟩
  · intro hv
    have hc := mapList_complete v hv.1
    interval_cases k
    · exact hc.1 hv.2
    · exact hc.2.1 hv.2
    · exact hc.2.2.1 hv.2
    · exact hc.2.2.2 hv.2

/-! Facts about xor with 255 and small bit counts. -/

theorem count_ones_xor255 : ∀ v < 256, count_ones (v ^^^ 255) = 8 - count_ones v := by
  decide

theorem count_ones_le_eight : ∀ v < 256, count_ones v ≤ 8 := by decide

theorem count_ones_eq_eight : ∀ v < 256, count_ones v = 8 → v = 255 := by decide

theorem xor255_lt {v : Nat} (h : v < 256) : v ^^^ 255 < 256 := by
  have h8 : (2 : Nat) ^ 8 = 256 := by norm_num
  have := Nat.xor_lt_two_pow (n := 8) (x := v) (y := 255) (by omega) (by omega)
  omega

theorem xor255_xor255 (v : Nat) : v ^^^ 255 ^^^ 255 = v := by
  rw [Nat.xor_assoc]
  simp

theorem xor255_ge {v : Nat} (h : 256 ≤ v) : 256 ≤ v ^^^ 255 := by
  by_contra hlt
  push_neg at hlt
  have h2 := xor255_lt hlt
  rw [xor255_xor255] at h2
  omega

/-! Branch equations for the u8 sampler. -/

theorem sampleU8_zero (s : RS) (p : Nat) : sampleU8 s p 0 = some (0, p) := rfl

theorem sampleU8_eight (s : RS) (p : Nat) : sampleU8 s p 8 = some (255, p) := rfl

theorem sampleU8_table {bits : Nat} (h1 : 1 ≤ bits) (h2 : bits ≤ 4) (s : RS) (p : Nat) :
    sampleU8 s p bits =
      ((mapList bits)[s p % (mapList bits).length]?).map (fun v => (v, p + 1)) := by
  show sampleU8Aux 2 s p bits = _
  simp only [sampleU8Aux]
  rw [if_neg (by omega), if_neg (by omega), if_pos ⟨h1, h2⟩,
    MAPPING_eq_mapList ((MAPPING_isSome_iff bits).2 ⟨h1, h2⟩)]
  have hlen : (mapList bits).length ≠ 0 := by
    have := mapList_length_pos h1 h2
    omega
  simp only [genRangeExcl, if_neg hlen]
  have hidx : s p % (mapList bits).length < (mapList bits).length :=
    Nat.mod_lt _ (by omega)
  rw [List.getElem?_eq_getElem hidx]
  rfl

theorem sampleU8_compl {bits : Nat} (h1 : 5 ≤ bits) (h2 : bits ≤ 7) (s : RS) (p : Nat) :
    sampleU8 s p bits =
      (sampleU8 s p (8 - bits)).map (fun r => (r.1 ^^^ 255, r.2)) := by
  interval_cases bits <;> rfl

theorem sampleU8_panic {bits : Nat} (h : 8 < bits) (s : RS) (p : Nat) :
    sampleU8 s p bits = none := by
  show sampleU8Aux 2 s p bits = _
  simp only [sampleU8Aux]
  rw [if_neg (by omega), if_neg (by omega), if_neg (by omega), if_neg (by omega)]

/-- Master specification of the u8 sampler: for every stream and every
requested popcount in `[0, 8]` it succeeds and returns a byte of exactly that
weight. -/
theorem sampleU8_spec (s : RS) (p : Nat) :
    ∀ bits ≤ 8, ∃ v p2, sampleU8 s p bits = some (v, p2) ∧
      count_ones v = bits ∧ v < 2 ^ 8 := by
  intro bits hb
  rcases Nat.eq_zero_or_pos bits with h0 | h0
  · subst h0
    exact ⟨0, p, sampleU8_zero s p, rfl, by norm_num⟩
  rcases Nat.eq_or_lt_of_le hb with h8 | h8
  · subst h8
    exact ⟨255, p, sampleU8_eight s p, by decide, by norm_num⟩
  rcases le_or_lt bits 4 with h4 | h4
  · have heq := sampleU8_table h0 h4 s p
    have hidx : s p % (mapList bits).length < (mapList bits).length :=
      Nat.mod_lt _ (mapList_length_pos h0 h4)
    rw [List.getElem?_eq_getElem hidx] at heq
    refine ⟨(mapList bits)[s p % (mapList bits).length], p + 1, heq, ?_⟩
    have hmem := List.getElem_mem hidx
    have := (mem_mapList_iff h0 h4).1 hmem
    exact ⟨this.2, by omega⟩
  · have h5 : 5 ≤ bits := by omega
    have h7 : bits ≤ 7 := by omega
    have heq := sampleU8_compl h5 h7 s p
    have hsub1 : 1 ≤ 8 - bits := by omega
    have hsub4 : 8 - bits ≤ 4 := by omega
    have hteq := sampleU8_table hsub1 hsub4 s p
    have hidx : s p % (mapList (8 - bits)).length < (mapList (8 - bits)).length :=
      Nat.mod_lt _ (mapList_length_pos hsub1 hsub4)
    rw [List.getElem?_eq_getElem hidx] at hteq
    rw [hteq] at heq
    set w := (mapList (8 - bits))[s p % (mapList (8 - bits)).length] with hw
    have hmem : w ∈ mapList (8 - bits) := List.getElem_mem hidx
    have hwspec := (mem_mapList_iff hsub1 hsub4).1 hmem
    refine ⟨w ^^^ 255, p + 1, heq, ?_, ?_⟩
    · rw [count_ones_xor255 w hwspec.1, hwspec.2]
      omega
    · have := xor255_lt hwspec.1
      omega

/-! The width-composition step. -/

theorem shiftLeft_or_eq {half lv : Nat} (hlv : lv < 2 ^ half) (hv : Nat) :
    (hv <<< half) ||| lv = 2 ^ half * hv + lv := by
  rw [Nat.shiftLeft_eq, Nat.mul_comm]
  exact (Nat.mul_add_lt_is_or hlv hv).symm

theorem genRangeIncl_eq {lo hi : Nat} (h : lo ≤ hi) (s : RS) (p : Nat) :
    genRangeIncl s p lo hi = some (lo + s p % (hi + 1 - lo)) := by
  simp [genRangeIncl, Nat.not_lt_of_le h]

theorem genRangeIncl_bounds {lo hi h : Nat} (hle : lo ≤ hi) (s : RS) (p : Nat)
    (heq : genRangeIncl s p lo hi = some h) : lo ≤ h ∧ h ≤ hi := by
  rw [genRangeIncl_eq hle] at heq
  have hmod : s p % (hi + 1 - lo) < hi + 1 - lo := Nat.mod_lt _ (by omega)
  have := Option.some.inj heq
  omega

theorem sampleSplit_zero (width : Nat) (sub : RS → Nat → Nat → Option (Nat × Nat))
    (s : RS) (p : Nat) : sampleSplit width sub s p 0 = some (0, p) := by
  simp [sampleSplit]

theorem sampleSplit_max (width : Nat) (sub : RS → Nat → Nat → Option (Nat × Nat))
    (s : RS) (p : Nat) (hw : 0 < width) :
    sampleSplit width sub s p width = some (2 ^ width - 1, p) := by
  simp only [sampleSplit]
  rw [if_neg (by omega)]
  simp

theorem sampleSplit_panic (width : Nat) (sub : RS → Nat → Nat → Option (Nat × Nat))
    (s : RS) (p bits : Nat) (h : width < bits) :
    sampleSplit width sub s p bits = none := by
  simp only [sampleSplit]
  rw [if_neg (by omega), if_neg (by omega), if_neg (by omega)]

theorem sampleSplit_step (half : Nat) (sub : RS → Nat → Nat → Option (Nat × Nat))
    (s : RS) (p bits : Nat) (h1 : 1 ≤ bits) (h2 : bits < 2 * half)
    {hbit hv lv p1 p2 : Nat}
    (hgen : genRangeIncl s p (bits - half) (min bits half) = some hbit)
    (hs1 : sub s (p + 1) hbit = some (hv, p1))
    (hs2 : sub s p1 (bits - hbit) = some (lv, p2)) :
    sampleSplit (2 * half) sub s p bits = some ((hv <<< half) ||| lv, p2) := by
  have hhalf : 2 * half / 2 = half := by omega
  simp only [sampleSplit, hhalf]
  rw [if_neg (by omega), if_neg (by omega), if_pos ⟨h1, h2⟩]
  simp only [hgen, hs1, hs2]

/-- Master specification of the composition step: if the half-width sampler
always succeeds with the exact requested weight, so does the composed
width sampler, for every popcount up to the full width. -/
theorem sampleSplit_spec (half : Nat) (hpos : 0 < half)
    (sub : RS → Nat → Nat → Option (Nat × Nat))
    (hsub : ∀ s p, ∀ bits ≤ half, ∃ v p2, sub s p bits = some (v, p2) ∧
      count_ones v = bits ∧ v < 2 ^ half)
    (s : RS) (p : Nat) :
    ∀ bits ≤ 2 * half, ∃ v p2, sampleSplit (2 * half) sub s p bits = some (v, p2) ∧
      count_ones v = bits ∧ v < 2 ^ (2 * half) := by
  intro bits hb
  rcases Nat.eq_zero_or_pos bits with h0 | h0
  · subst h0
    exact ⟨0, p, sampleSplit_zero _ sub s p, rfl, Nat.two_pow_pos _⟩
  rcases Nat.eq_or_lt_of_le hb with hW | hW
  · refine ⟨2 ^ (2 * half) - 1, p, ?_, ?_, ?_⟩
    · rw [hW]
      exact sampleSplit_max _ sub s p (by omega)
    · rw [count_ones_two_pow_sub_one, hW]
    · have := Nat.two_pow_pos (2 * half)
      omega
  · have hlohi : bits - half ≤ min bits half := by omega
    have hgen := genRangeIncl_eq hlohi s p
    obtain ⟨hlo, hhi⟩ := genRangeIncl_bounds hlohi s p hgen
    set hbit := bits - half + s p % (min bits half + 1 - (bits - half)) with hbitdef
    have hbhalf : hbit ≤ half := by omega
    have hlow : bits - hbit ≤ half := by omega
    obtain ⟨hv, p1, hs1, hc1, hb1⟩ := hsub s (p + 1) hbit hbhalf
    obtain ⟨lv, p2, hs2, hc2, hb2⟩ := hsub s p1 (bits - hbit) hlow
    refine ⟨(hv <<< half) ||| lv, p2,
      sampleSplit_step half sub s p bits h0 hW hgen hs1 hs2, ?_, ?_⟩
    · rw [shiftLeft_or_eq hb2 hv, count_ones_mul_pow_add half hv lv hb2, hc1, hc2]
      omega
    · rw [shiftLeft_or_eq hb2 hv]
      have hpow : 2 ^ (2 * half) = 2 ^ half * 2 ^ half := by
        rw [two_mul, pow_add]
      have hstep : 2 ^ half * hv + lv < 2 ^ half * (hv + 1) := by
        have : 2 ^ half * (hv + 1) = 2 ^ half * hv + 2 ^ half := by ring
        omega
      have hmul : 2 ^ half * (hv + 1) ≤ 2 ^ half * 2 ^ half :=
        Nat.mul_le_mul_left _ (by omega)
      omega

/-- The master specification instantiated down the width ladder. -/
theorem sampleU16_spec (s : RS) (p : Nat) :
    ∀ bits ≤ 16, ∃ v p2, sampleU16 s p bits = some (v, p2) ∧
      count_ones v = bits ∧ v < 2 ^ 16 :=
  fun bits hb =>
    sampleSplit_spec 8 (by omega) sampleU8 sampleU8_spec s p bits (by omega)

theorem sampleU32_spec (s : RS) (p : Nat) :
    ∀ bits ≤ 32, ∃ v p2, sampleU32 s p bits = some (v, p2) ∧
      count_ones v = bits ∧ v < 2 ^ 32 :=
  fun bits hb =>
    sampleSplit_spec 16 (by omega) sampleU16 sampleU16_spec s p bits (by omega)

theorem sampleU64_spec (s : RS) (p : Nat) :
    ∀ bits ≤ 64, ∃ v p2, sampleU64 s p bits = some (v, p2) ∧
      count_ones v = bits ∧ v < 2 ^ 64 :=
  fun bits hb =>
    sampleSplit_spec 32 (by omega) sampleU32 sampleU32_spec s p bits (by omega)

theorem sampleU128_spec (s : RS) (p : Nat) :
    ∀ bits ≤ 128, ∃ v p2, sampleU128 s p bits = some (v, p2) ∧
      count_ones v = bits ∧ v < 2 ^ 128 :=
  fun bits hb =>
    sampleSplit_spec 64 (by omega) sampleU64 sampleU64_spec s p bits (by omega)

/-! The probability mass functions. -/

theorem u8Dist_zero (v : Nat) : u8Dist 0 v = if v = 0 then 1 else 0 := rfl

theorem u8Dist_eight (v : Nat) : u8Dist 8 v = if v = 255 then 1 else 0 := rfl

theorem u8Dist_table {bits : Nat} (h1 : 1 ≤ bits) (h2 : bits ≤ 4) (v : Nat) :
    u8Dist bits v = ((mapList bits).count v : ℚ) / ((mapList bits).length : ℚ) := by
  interval_cases bits <;> rfl

theorem u8Dist_compl {bits : Nat} (h1 : 5 ≤ bits) (h2 : bits ≤ 7) (v : Nat) :
    u8Dist bits v = u8Dist (8 - bits) (v ^^^ 255) := by
  interval_cases bits <;> rfl

/-- Uniformity of the byte sampler, for popcounts `0..=4` (the arms that do
not recurse). -/
theorem u8Dist_uniform_low {bits : Nat} (hb : bits ≤ 4 ∨ bits = 8) (v : Nat) :
    u8Dist bits v =
      if v < 256 ∧ count_ones v = bits then ((Nat.choose 8 bits : ℚ))⁻¹ else 0 := by
  rcases hb with hb | hb
  · rcases Nat.eq_zero_or_pos bits with h0 | h0
    · subst h0
      rw [u8Dist_zero]
      by_cases hv : v = 0
      · subst hv
        rw [if_pos rfl, if_pos ⟨by omega, rfl⟩]
        norm_num
      · rw [if_neg hv, if_neg]
        rintro ⟨-, hc⟩
        exact hv (count_ones_eq_zero hc)
    · rw [u8Dist_table h0 hb]
      by_cases hm : v ∈ mapList bits
      · rw [List.count_eq_one_of_mem (mapList_nodup bits (by omega)) hm,
          if_pos ((mem_mapList_iff h0 hb).1 hm),
          mapList_length bits (by omega) h0]
        norm_num
      · rw [List.count_eq_zero_of_not_mem hm, if_neg]
        · norm_num
        · intro hc
          exact hm ((mem_mapList_iff h0 hb).2 hc)
  · subst hb
    rw [u8Dist_eight]
    by_cases hv : v = 255
    · subst hv
      rw [if_pos rfl, if_pos ⟨by omega, by decide⟩]
      norm_num
    · rw [if_neg hv, if_neg]
      rintro ⟨hlt, hc⟩
      exact hv (count_ones_eq_eight v hlt hc)

/-- Uniformity of the byte sampler: assuming uniform range draws, every byte
of the requested weight is produced with probability `1 / C(8, bits)`, and no
other value is ever produced. -/
theorem u8Dist_uniform {bits : Nat} (hb : bits ≤ 8) (v : Nat) :
    u8Dist bits v =
      if v < 256 ∧ count_ones v = bits then ((Nat.choose 8 bits : ℚ))⁻¹ else 0 := by
  by_cases h47 : bits ≤ 4 ∨ bits = 8
  · exact u8Dist_uniform_low h47 v
  · have h5 : 5 ≤ bits := by omega
    have h7 : bits ≤ 7 := by omega
    rw [u8Dist_compl h5 h7, u8Dist_uniform_low (Or.inl (by omega)) (v ^^^ 255)]
    have hcong : (v ^^^ 255 < 256 ∧ count_ones (v ^^^ 255) = 8 - bits) ↔
        (v < 256 ∧ count_ones v = bits) := by
      constructor
      · rintro ⟨hlt, hc⟩
        have hvlt : v < 256 := by
          have := xor255_lt hlt
          rw [xor255_xor255] at this
          exact this
        refine ⟨hvlt, ?_⟩
        have h8 := count_ones_le_eight v hvlt
        rw [count_ones_xor255 v hvlt] at hc
        omega
      · rintro ⟨hlt, hc⟩
        refine ⟨xor255_lt hlt, ?_⟩
        rw [count_ones_xor255 v hlt, hc]
    rw [if_congr hcong rfl rfl, Nat.choose_symm (by omega : bits ≤ 8)]

theorem distSplit_comp (width : Nat) (sub : Nat → Nat → ℚ) {bits : Nat} (v : Nat)
    (h1 : 1 ≤ bits) (h2 : bits < width) :
    distSplit width sub bits v =
      (((min bits (width / 2) + 1 - (bits - width / 2) : Nat) : ℚ))⁻¹ *
        ∑ h ∈ Finset.Icc (bits - width / 2) (min bits (width / 2)),
          sub h (v / 2 ^ (width / 2)) * sub (bits - h) (v % 2 ^ (width / 2)) := by
  simp only [distSplit]
  rw [if_neg (by omega), if_neg (by omega), if_pos ⟨h1, h2⟩]

/-- Closed form of the u16 sampler's output distribution: conditional on the
uniformly drawn high-half popcount, each half is uniform over its table, so a
value `v` of weight `bits` has probability
`1 / (number of feasible splits) * 1 / C(8, weight of high byte) * 1 / C(8, weight of low byte)`. -/
theorem u16Dist_eq {bits v : Nat} (h1 : 1 ≤ bits) (h2 : bits < 16)
    (hv : v < 2 ^ 16) (hw : count_ones v = bits) :
    u16Dist bits v = ((min bits 8 + 1 - (bits - 8) : Nat) : ℚ)⁻¹ *
      (((Nat.choose 8 (count_ones (v / 256)) : ℚ))⁻¹ *
        ((Nat.choose 8 (count_ones (v % 256)) : ℚ))⁻¹) := by
  have h65536 : (2 : Nat) ^ 16 = 65536 := by norm_num
  have ha : v / 256 < 256 := by omega
  have hbb : v % 256 < 256 := by omega
  have hdecomp : 2 ^ 8 * (v / 256) + v % 256 = v := by
    have h256 : (2 : Nat) ^ 8 = 256 := by norm_num
    omega
  have hsum : count_ones (v / 256) + count_ones (v % 256) = bits := by
    have h256 : (2 : Nat) ^ 8 = 256 := by norm_num
    have hx : count_ones v = count_ones (v / 256) + count_ones (v % 256) := by
      conv_lhs => rw [← hdecomp]
      exact count_ones_mul_pow_add 8 (v / 256) (v % 256) (by omega)
    omega
  have hwa8 : count_ones (v / 256) ≤ 8 := count_ones_le_eight _ ha
  have hwb8 : count_ones (v % 256) ≤ 8 := count_ones_le_eight _ hbb
  have hcomp := distSplit_comp 16 u8Dist v h1 h2
  norm_num at hcomp
  rw [show u16Dist bits v = distSplit 16 u8Dist bits v from rfl, hcomp]
  congr 1
  rw [Finset.sum_eq_single (count_ones (v / 256))]
  · rw [u8Dist_uniform hwa8, if_pos ⟨ha, rfl⟩,
      u8Dist_uniform (by omega : bits - count_ones (v / 256) ≤ 8),
      if_pos ⟨hbb, by omega⟩]
    have hwb : bits - count_ones (v / 256) = count_ones (v % 256) := by omega
    rw [hwb]
  · intro b hb hne
    rw [u8Dist_uniform (by
        simp only [Finset.mem_Icc] at hb
        omega : b ≤ 8)]
    rw [if_neg]
    · exact zero_mul _
    · rintro ⟨-, hc⟩
      exact hne hc.symm
  · intro habs
    exfalso
    apply habs
    simp only [Finset.mem_Icc]
    omega

/-! Concrete distribution values. -/

theorem count_ones_split16 (v : Nat) :
    count_ones v = count_ones (v / 256) + count_ones (v % 256) := by
  have h256 : (2 : Nat) ^ 8 = 256 := by norm_num
  have hdecomp : 2 ^ 8 * (v / 256) + v % 256 = v := by omega
  conv_lhs => rw [← hdecomp]
  exact count_ones_mul_pow_add 8 (v / 256) (v % 256) (by omega)

theorem u16Dist_768 : u16Dist 2 768 = (84 : ℚ)⁻¹ := by
  rw [u16Dist_eq (by omega) (by omega) (by norm_num) (by decide),
    show count_ones (768 / 256) = 2 from by decide,
    show count_ones (768 % 256) = 0 from by decide,
    show (min 2 8 + 1 - (2 - 8) : Nat) = 3 from by decide,
    show Nat.choose 8 2 = 28 from by decide,
    show Nat.choose 8 0 = 1 from by decide]
  norm_num

theorem u16Dist_257 : u16Dist 2 257 = (192 : ℚ)⁻¹ := by
  rw [u16Dist_eq (by omega) (by omega) (by norm_num) (by decide),
    show count_ones (257 / 256) = 1 from by decide,
    show (min 2 8 + 1 - (2 - 8) : Nat) = 3 from by decide,
    show Nat.choose 8 1 = 8 from by decide]
  norm_num

theorem u16Dist_fifteen {v : Nat} (hv : v < 2 ^ 16) (hw : count_ones v = 15) :
    u16Dist 15 v = (16 : ℚ)⁻¹ := by
  have h65536 : (2 : Nat) ^ 16 = 65536 := by norm_num
  have ha : v / 256 < 256 := by omega
  have hbb : v % 256 < 256 := by omega
  have hwa8 := count_ones_le_eight _ ha
  have hwb8 := count_ones_le_eight _ hbb
  have hsplit := count_ones_split16 v
  rw [u16Dist_eq (by omega) (by omega) hv hw,
    show (min 15 8 + 1 - (15 - 8) : Nat) = 2 from by decide]
  rcases (by omega : count_ones (v / 256) = 7 ∨ count_ones (v / 256) = 8) with h7 | h8
  · rw [h7, (by omega : count_ones (v % 256) = 8),
      show Nat.choose 8 7 = 8 from by decide,
      show Nat.choose 8 8 = 1 from by decide]
    norm_num
  · rw [h8, (by omega : count_ones (v % 256) = 7),
      show Nat.choose 8 8 = 1 from by decide,
      show Nat.choose 8 7 = 8 from by decide]
    norm_num

/-! The claims. -/

/-- C1: for every supported width W in {8, 16, 32, 64, 128}, every popcount k
with 0 ≤ k ≤ W and every random source, the value returned by gen_bits
(Standard.sample for the corresponding unsigned type) has Hamming weight
(count_ones) exactly k. -/
theorem claim_C1 (s : RS) (p k : Nat) :
    (k ≤ 8 → ∃ v p2, sampleU8 s p k = some (v, p2) ∧ count_ones v = k) ∧
    (k ≤ 16 → ∃ v p2, sampleU16 s p k = some (v, p2) ∧ count_ones v = k) ∧
    (k ≤ 32 → ∃ v p2, sampleU32 s p k = some (v, p2) ∧ count_ones v = k) ∧
    (k ≤ 64 → ∃ v p2, sampleU64 s p k = some (v, p2) ∧ count_ones v = k) ∧
    (k ≤ 128 → ∃ v p2, sampleU128 s p k = some (v, p2) ∧ count_ones v = k) := by
  refine ⟨fun h => ?_, fun h => ?_, fun h => ?_, fun h => ?_, fun h => ?_⟩
  · obtain ⟨v, p2, he, hc, -⟩ := sampleU8_spec s p k h
    exact ⟨v, p2, he, hc⟩
  · obtain ⟨v, p2, he, hc, -⟩ := sampleU16_spec s p k h
    exact ⟨v, p2, he, hc⟩
  · obtain ⟨v, p2, he, hc, -⟩ := sampleU32_spec s p k h
    exact ⟨v, p2, he, hc⟩
  · obtain ⟨v, p2, he, hc, -⟩ := sampleU64_spec s p k h
    exact ⟨v, p2, he, hc⟩
  · obtain ⟨v, p2, he, hc, -⟩ := sampleU128_spec s p k h
    exact ⟨v, p2, he, hc⟩

/-- Witness for C1 at width 8, popcount 3. -/
theorem claim_C1_witness :
    ∃ v p2, sampleU8 (fun _ => 0) 0 3 = some (v, p2) ∧ count_ones v = 3 :=
  (claim_C1 (fun _ => 0) 0 3).1 (by omega)

/-- C5: for every supported width W, calling gen_bits with popcount k > W
fails fast with a panic (modelled as none) and never silently returns a
value. -/
theorem claim_C5 (s : RS) (p k : Nat) :
    (8 < k → sampleU8 s p k = none) ∧ (16 < k → sampleU16 s p k = none) ∧
    (32 < k → sampleU32 s p k = none) ∧ (64 < k → sampleU64 s p k = none) ∧
    (128 < k → sampleU128 s p k = none) :=
  ⟨fun h => sampleU8_panic h s p,
   fun h => sampleSplit_panic 16 sampleU8 s p k h,
   fun h => sampleSplit_panic 32 sampleU16 s p k h,
   fun h => sampleSplit_panic 64 sampleU32 s p k h,
   fun h => sampleSplit_panic 128 sampleU64 s p k h⟩

/-- Witness for C5 at width 8, popcount 9. -/
theorem claim_C5_witness : sampleU8 (fun _ => 0) 0 9 = none :=
  (claim_C5 (fun _ => 0) 0 9).1 (by omega)

/-- C6: for every supported width W and every random source, gen_bits with
popcount 0 returns 0 and gen_bits with popcount W returns 2^W - 1. -/
theorem claim_C6 (s : RS) (p : Nat) :
    sampleU8 s p 0 = some (0, p) ∧ sampleU8 s p 8 = some (2 ^ 8 - 1, p) ∧
    sampleU16 s p 0 = some (0, p) ∧ sampleU16 s p 16 = some (2 ^ 16 - 1, p) ∧
    sampleU32 s p 0 = some (0, p) ∧ sampleU32 s p 32 = some (2 ^ 32 - 1, p) ∧
    sampleU64 s p 0 = some (0, p) ∧ sampleU64 s p 64 = some (2 ^ 64 - 1, p) ∧
    sampleU128 s p 0 = some (0, p) ∧ sampleU128 s p 128 = some (2 ^ 128 - 1, p) :=
  ⟨rfl, rfl,
   sampleSplit_zero 16 sampleU8 s p, sampleSplit_max 16 sampleU8 s p (by omega),
   sampleSplit_zero 32 sampleU16 s p, sampleSplit_max 32 sampleU16 s p (by omega),
   sampleSplit_zero 64 sampleU32 s p, sampleSplit_max 64 sampleU32 s p (by omega),
   sampleSplit_zero 128 sampleU64 s p, sampleSplit_max 128 sampleU64 s p (by omega)⟩

/-- Witness for C6 at width 16. -/
theorem claim_C6_witness : sampleU16 (fun _ => 0) 0 16 = some (2 ^ 16 - 1, 0) :=
  (claim_C6 (fun _ => 0) 0).2.2.2.1

/-- C9: for every supported width W and popcount k in [0, W], Standard.sample
never panics (isSome), and the MAPPING lookup succeeds for every popcount it
is consulted for (1 through 4). -/
theorem claim_C9 (s : RS) (p k : Nat) :
    (k ≤ 8 → (sampleU8 s p k).isSome) ∧ (k ≤ 16 → (sampleU16 s p k).isSome) ∧
    (k ≤ 32 → (sampleU32 s p k).isSome) ∧ (k ≤ 64 → (sampleU64 s p k).isSome) ∧
    (k ≤ 128 → (sampleU128 s p k).isSome) ∧
    (1 ≤ k → k ≤ 4 → (MAPPING k).isSome) := by
  refine ⟨fun h => ?_, fun h => ?_, fun h => ?_, fun h => ?_, fun h => ?_,
    fun h1 h2 => (MAPPING_isSome_iff k).2 ⟨h1, h2⟩⟩
  · obtain ⟨v, p2, he, -, -⟩ := sampleU8_spec s p k h
    rw [he]; rfl
  · obtain ⟨v, p2, he, -, -⟩ := sampleU16_spec s p k h
    rw [he]; rfl
  · obtain ⟨v, p2, he, -, -⟩ := sampleU32_spec s p k h
    rw [he]; rfl
  · obtain ⟨v, p2, he, -, -⟩ := sampleU64_spec s p k h
    rw [he]; rfl
  · obtain ⟨v, p2, he, -, -⟩ := sampleU128_spec s p k h
    rw [he]; rfl

/-- Witness for C9 at width 128, popcount 100. -/
theorem claim_C9_witness : (sampleU128 (fun _ => 0) 0 100).isSome :=
  (claim_C9 (fun _ => 0) 0 100).2.2.2.2.1 (by omega)

/-- C4: for every width W in {16, 32, 64, 128} and popcount k in [1, W-1],
the sampler draws the high-half popcount from the inclusive range
[max(0, k - W/2), min(k, W/2)] (natural subtraction is the truncated max),
samples the two halves with popcounts h and k - h, and returns
(high <<< W/2) ||| low. -/
theorem claim_C4 (s : RS) (p k : Nat) :
    (1 ≤ k → k < 16 → ∃ h hv lv p1 p2,
      genRangeIncl s p (k - 8) (min k 8) = some h ∧ k - 8 ≤ h ∧ h ≤ min k 8 ∧
      sampleU8 s (p + 1) h = some (hv, p1) ∧
      sampleU8 s p1 (k - h) = some (lv, p2) ∧
      sampleU16 s p k = some ((hv <<< 8) ||| lv, p2)) ∧
    (1 ≤ k → k < 32 → ∃ h hv lv p1 p2,
      genRangeIncl s p (k - 16) (min k 16) = some h ∧ k - 16 ≤ h ∧ h ≤ min k 16 ∧
      sampleU16 s (p + 1) h = some (hv, p1) ∧
      sampleU16 s p1 (k - h) = some (lv, p2) ∧
      sampleU32 s p k = some ((hv <<< 16) ||| lv, p2)) ∧
    (1 ≤ k → k < 64 → ∃ h hv lv p1 p2,
      genRangeIncl s p (k - 32) (min k 32) = some h ∧ k - 32 ≤ h ∧ h ≤ min k 32 ∧
      sampleU32 s (p + 1) h = some (hv, p1) ∧
      sampleU32 s p1 (k - h) = some (lv, p2) ∧
      sampleU64 s p k = some ((hv <<< 32) ||| lv, p2)) ∧
    (1 ≤ k → k < 128 → ∃ h hv lv p1 p2,
      genRangeIncl s p (k - 64) (min k 64) = some h ∧ k - 64 ≤ h ∧ h ≤ min k 64 ∧
      sampleU64 s (p + 1) h = some (hv, p1) ∧
      sampleU64 s p1 (k - h) = some (lv, p2) ∧
      sampleU128 s p k = some ((hv <<< 64) ||| lv, p2)) := by
  refine ⟨fun h1 h2 => ?_, fun h1 h2 => ?_, fun h1 h2 => ?_, fun h1 h2 => ?_⟩
  · have hlohi : k - 8 ≤ min k 8 := by omega
    have hgen := genRangeIncl_eq hlohi s p
    obtain ⟨hlo, hhi⟩ := genRangeIncl_bounds hlohi s p hgen
    set hb := k - 8 + s p % (min k 8 + 1 - (k - 8)) with hbdef
    obtain ⟨hv, p1, hs1, -, -⟩ := sampleU8_spec s (p + 1) hb (by omega)
    obtain ⟨lv, p2, hs2, -, -⟩ := sampleU8_spec s p1 (k - hb) (by omega)
    exact ⟨hb, hv, lv, p1, p2, hgen, hlo, hhi, hs1, hs2,
      sampleSplit_step 8 sampleU8 s p k h1 h2 hgen hs1 hs2⟩
  · have hlohi : k - 16 ≤ min k 16 := by omega
    have hgen := genRangeIncl_eq hlohi s p
    obtain ⟨hlo, hhi⟩ := genRangeIncl_bounds hlohi s p hgen
    set hb := k - 16 + s p % (min k 16 + 1 - (k - 16)) with hbdef
    obtain ⟨hv, p1, hs1, -, -⟩ := sampleU16_spec s (p + 1) hb (by omega)
    obtain ⟨lv, p2, hs2, -, -⟩ := sampleU16_spec s p1 (k - hb) (by omega)
    exact ⟨hb, hv, lv, p1, p2, hgen, hlo, hhi, hs1, hs2,
      sampleSplit_step 16 sampleU16 s p k h1 h2 hgen hs1 hs2⟩
  · have hlohi : k - 32 ≤ min k 32 := by omega
    have hgen := genRangeIncl_eq hlohi s p
    obtain ⟨hlo, hhi⟩ := genRangeIncl_bounds hlohi s p hgen
    set hb := k - 32 + s p % (min k 32 + 1 - (k - 32)) with hbdef
    obtain ⟨hv, p1, hs1, -, -⟩ := sampleU32_spec s (p + 1) hb (by omega)
    obtain ⟨lv, p2, hs2, -, -⟩ := sampleU32_spec s p1 (k - hb) (by omega)
    exact ⟨hb, hv, lv, p1, p2, hgen, hlo, hhi, hs1, hs2,
      sampleSplit_step 32 sampleU32 s p k h1 h2 hgen hs1 hs2⟩
  · have hlohi : k - 64 ≤ min k 64 := by omega
    have hgen := genRangeIncl_eq hlohi s p
    obtain ⟨hlo, hhi⟩ := genRangeIncl_bounds hlohi s p hgen
    set hb := k - 64 + s p % (min k 64 + 1 - (k - 64)) with hbdef
    obtain ⟨hv, p1, hs1, -, -⟩ := sampleU64_spec s (p + 1) hb (by omega)
    obtain ⟨lv, p2, hs2, -, -⟩ := sampleU64_spec s p1 (k - hb) (by omega)
    exact ⟨hb, hv, lv, p1, p2, hgen, hlo, hhi, hs1, hs2,
      sampleSplit_step 64 sampleU64 s p k h1 h2 hgen hs1 hs2⟩

/-- Witness for C4 at width 16, popcount 3. -/
theorem claim_C4_witness : ∃ h hv lv p1 p2,
    genRangeIncl (fun _ => 0) 0 (3 - 8) (min 3 8) = some h ∧
    3 - 8 ≤ h ∧ h ≤ min 3 8 ∧
    sampleU8 (fun _ => 0) (0 + 1) h = some (hv, p1) ∧
    sampleU8 (fun _ => 0) p1 (3 - h) = some (lv, p2) ∧
    sampleU16 (fun _ => 0) 0 3 = some ((hv <<< 8) ||| lv, p2) :=
  (claim_C4 (fun _ => 0) 0 3).1 (by omega) (by omega)

/-- C3 counterexample: the byte table does not provide an entry for every
popcount in [0, 8]; at the concrete key 0 the lookup is `None` (likewise 5..8),
and the union of the entries that do exist has 162 values, not 256. -/
theorem claim_C3_counterexample :
    MAPPING 0 = none ∧ MAPPING 5 = none ∧ MAPPING 8 = none ∧
    (mapList 1 ++ mapList 2 ++ mapList 3 ++ mapList 4).length = 162 :=
  ⟨rfl, rfl, rfl, rfl⟩

/-- C3 (amended): MAPPING has an entry exactly for the popcounts 1 through 4;
for each such k the entry has exactly C(8,k) distinct byte values, each of
Hamming weight exactly k, and the union of the four entries covers every byte
value of weight 1 through 4 exactly once (162 of the 256 bytes; weights 0, 8
and 5..7 are handled outside the table by the sampler). -/
theorem claim_C3_amended :
    (∀ k, (MAPPING k).isSome ↔ (1 ≤ k ∧ k ≤ 4)) ∧
    (∀ k, 1 ≤ k → k ≤ 4 →
      MAPPING k = some (mapList k) ∧
      (mapList k).length = Nat.choose 8 k ∧ (mapList k).Nodup ∧
      (∀ v, v ∈ mapList k ↔ (v < 256 ∧ count_ones v = k))) ∧
    (∀ v < 256, (mapList 1 ++ mapList 2 ++ mapList 3 ++ mapList 4).count v =
      if 1 ≤ count_ones v ∧ count_ones v ≤ 4 then 1 else 0) := by
  refine ⟨MAPPING_isSome_iff, fun k h1 h2 => ?_, ?_⟩
  · exact ⟨MAPPING_eq_mapList ((MAPPING_isSome_iff k).2 ⟨h1, h2⟩),
      mapList_length k (by omega) h1, mapList_nodup k (by omega),
      fun v => mem_mapList_iff h1 h2⟩
  · decide

/-- Witness for C3 (amended) at the byte 7 (weight 3): it occurs exactly once
in the union of the table entries. -/
theorem claim_C3_witness :
    (mapList 1 ++ mapList 2 ++ mapList 3 ++ mapList 4).count 7 =
      if 1 ≤ count_ones 7 ∧ count_ones 7 ≤ 4 then 1 else 0 :=
  claim_C3_amended.2.2 7 (by omega)

/-- C7: the byte sampler draws its index with the bounded-range primitive
`gen_range(0..len)` (so, assuming rand's uniform range draws, uniformly over
[0, table size)), and therefore every byte of weight k is returned with
probability exactly 1/C(8,k); this covers the non-power-of-two table sizes 28
(k = 2, and by complementation k = 6) and 56 (k = 3, and k = 5). -/
theorem claim_C7 :
    (∀ bits, bits ≤ 8 → ∀ v, u8Dist bits v =
      if v < 256 ∧ count_ones v = bits then ((Nat.choose 8 bits : ℚ))⁻¹ else 0) ∧
    (MAPPING 2).map List.length = some 28 ∧
    (MAPPING 3).map List.length = some 56 ∧
    (∀ s p bits, 1 ≤ bits → bits ≤ 4 → sampleU8 s p bits =
      ((mapList bits)[s p % (mapList bits).length]?).map (fun v => (v, p + 1))) :=
  ⟨fun bits hb v => u8Dist_uniform hb v, rfl, rfl,
   fun s p bits h1 h2 => sampleU8_table h1 h2 s p⟩

/-- Witness for C7 at popcount 2, byte 3 (weight 2): probability 1/28. -/
theorem claim_C7_witness :
    u8Dist 2 3 = if 3 < 256 ∧ count_ones 3 = 2 then ((Nat.choose 8 2 : ℚ))⁻¹ else 0 :=
  claim_C7.1 2 (by omega) 3

/-- C2 counterexample: at width 16 and popcount 2 the output distribution is
not uniform over the C(16,2) = 120 qualifying values: the value 0x0300 = 768
(weight 2, both set bits in the high byte) has probability 1/84 and the value
0x0101 = 257 (weight 2, one set bit per byte) has probability 1/192, neither
of which is 1/120. -/
theorem claim_C2_counterexample :
    count_ones 768 = 2 ∧ 768 < 2 ^ 16 ∧ count_ones 257 = 2 ∧ 257 < 2 ^ 16 ∧
    u16Dist 2 768 = (84 : ℚ)⁻¹ ∧ u16Dist 2 257 = (192 : ℚ)⁻¹ ∧
    u16Dist 2 768 ≠ ((Nat.choose 16 2 : ℚ))⁻¹ ∧
    u16Dist 2 768 ≠ u16Dist 2 257 := by
  refine ⟨by decide, by norm_num, by decide, by norm_num,
    u16Dist_768, u16Dist_257, ?_, ?_⟩
  · rw [u16Dist_768, show Nat.choose 16 2 = 120 from by decide]
    norm_num
  · rw [u16Dist_768, u16Dist_257]
    norm_num

/-- C2 (amended): assuming uniform range draws, the joint distribution at
width 16 is: the high-half popcount is uniform over the feasible splits and,
conditional on it, each half is uniform over its C(8, ·) qualifying bytes; so
a value v of weight k has probability
1/(number of feasible splits) * 1/C(8, weight of high byte) * 1/C(8, weight of
low byte), which is not the uniform 1/C(16,k) in general. -/
theorem claim_C2_amended (bits v : Nat) (h1 : 1 ≤ bits) (h2 : bits < 16)
    (hv : v < 2 ^ 16) (hw : count_ones v = bits) :
    u16Dist bits v = ((min bits 8 + 1 - (bits - 8) : Nat) : ℚ)⁻¹ *
      (((Nat.choose 8 (count_ones (v / 256)) : ℚ))⁻¹ *
        ((Nat.choose 8 (count_ones (v % 256)) : ℚ))⁻¹) :=
  u16Dist_eq h1 h2 hv hw

/-- Witness for C2 (amended) at popcount 2, value 768. -/
theorem claim_C2_amended_witness :
    u16Dist 2 768 = ((min 2 8 + 1 - (2 - 8) : Nat) : ℚ)⁻¹ *
      (((Nat.choose 8 (count_ones (768 / 256)) : ℚ))⁻¹ *
        ((Nat.choose 8 (count_ones (768 % 256)) : ℚ))⁻¹) :=
  claim_C2_amended 2 768 (by omega) (by omega) (by norm_num) (by decide)

/-- C8: gen_bits for u16 with popcount 15 always returns a 16-bit value with
exactly 15 bits set and, assuming uniform range draws, each of the 16
qualifying values (one zero bit in each possible position) has probability
exactly 1/16. -/
theorem claim_C8 :
    (∀ s p, ∃ v p2, sampleU16 s p 15 = some (v, p2) ∧
      count_ones v = 15 ∧ v < 2 ^ 16) ∧
    (∀ v, v < 2 ^ 16 → count_ones v = 15 → u16Dist 15 v = (16 : ℚ)⁻¹) := by
  constructor
  · intro s p
    obtain ⟨v, p2, he, hc, hb⟩ := sampleU16_spec s p 15 (by omega)
    exact ⟨v, p2, he, hc, hb⟩
  · intro v hv hw
    exact u16Dist_fifteen hv hw

/-- Witness for C8 at the value 0xFFFE = 65534 (zero bit in position 0). -/
theorem claim_C8_witness : u16Dist 15 65534 = (16 : ℚ)⁻¹ :=
  claim_C8.2 65534 (by norm_num) (by decide)

/-- C10: for popcount k in [5, 7] the u8 sampler returns exactly the bitwise
complement (xor with 0xFF) of a sample drawn with popcount 8 - k, and the set
of values it can return is exactly the complement-image of the table entry for
8 - k. -/
theorem claim_C10 (bits : Nat) (h5 : 5 ≤ bits) (h7 : bits ≤ 7) :
    (∀ s p, sampleU8 s p bits =
      (sampleU8 s p (8 - bits)).map (fun r => (r.1 ^^^ 255, r.2))) ∧
    (∀ v, (∃ s p p2, sampleU8 s p bits = some (v, p2)) ↔
      v ^^^ 255 ∈ mapList (8 - bits)) := by
  have hs1 : 1 ≤ 8 - bits := by omega
  have hs4 : 8 - bits ≤ 4 := by omega
  constructor
  · intro s p
    exact sampleU8_compl h5 h7 s p
  · intro v
    constructor
    · rintro ⟨s, p, p2, hs⟩
      rw [sampleU8_compl h5 h7 s p, sampleU8_table hs1 hs4 s p] at hs
      have hidx : s p % (mapList (8 - bits)).length < (mapList (8 - bits)).length :=
        Nat.mod_lt _ (mapList_length_pos hs1 hs4)
      rw [List.getElem?_eq_getElem hidx] at hs
      simp only [Option.map_some'] at hs
      have hv1 := congrArg Prod.fst (Option.some.inj hs)
      simp only at hv1
      rw [← hv1, xor255_xor255]
      exact List.getElem_mem hidx
    · intro hmem
      have hidxlt : (mapList (8 - bits)).indexOf (v ^^^ 255) <
          (mapList (8 - bits)).length := List.indexOf_lt_length.2 hmem
      refine ⟨fun _ => (mapList (8 - bits)).indexOf (v ^^^ 255), 0, 1, ?_⟩
      rw [sampleU8_compl h5 h7, sampleU8_table hs1 hs4]
      show ((mapList (8 - bits))[(mapList (8 - bits)).indexOf (v ^^^ 255) %
        (mapList (8 - bits)).length]?.map (fun x => (x, 0 + 1))).map
          (fun r => (r.1 ^^^ 255, r.2)) = some (v, 1)
      rw [Nat.mod_eq_of_lt hidxlt, List.getElem?_eq_getElem hidxlt]
      simp only [Option.map_some']
      rw [List.getElem_indexOf hidxlt, xor255_xor255]

/-- Witness for C10 at popcount 5. -/
theorem claim_C10_witness :
    sampleU8 (fun _ => 0) 0 5 =
      (sampleU8 (fun _ => 0) 0 (8 - 5)).map (fun r => (r.1 ^^^ 255, r.2)) :=
  (claim_C10 5 (by omega) (by omega)).1 (fun _ => 0) 0

end RandBits
